import Mathlib

/-!
Verification development for the `wip` developer-briefing tool.

The definitions below are a shallow embedding of the Python sources:
  src/wip/scanner.py    (repository inspector, agent-session detector)
  src/wip/worklist.py   (work-item store)
  src/wip/discovery.py  (directory walker)

Modelling conventions:
  - Python `str` values are Lean `String`s; the string primitives the code
    uses (lower, strip, split, rstrip, startswith, substring test, slicing)
    are re-implemented structurally over the character list so that they
    evaluate by kernel reduction.
  - Unix timestamps are `Int` seconds.  `datetime` subtraction followed by
    `int(total_seconds())` is exact on integral-second instants.
  - GitPython's repository handle is modelled by the `GitRepo` record: each
    git query the scanner issues is one field (the query's already-parsed
    result).  Backend exceptions swallowed by the code are not modelled;
    each field holds the value the scanner would observe on a healthy query.
  - Python's stable `list.sort` is modelled by `List.insertionSort` (stable,
    and it reduces in the kernel, unlike `List.mergeSort`).
-/

/-! ## String primitives (models of the Python `str` operations used) -/

/-- Model of Python `str.lower()` (src uses it only on ASCII-ish names). -/
def lowerStr (s : String) : String := ⟨s.data.map Char.toLower⟩

/-- Substring test on character lists: does `needle` occur contiguously in `hay`? -/
def containsSub (needle : List Char) : List Char → Bool
  | [] => needle.isEmpty
  | c :: rest => needle.isPrefixOf (c :: rest) || containsSub needle rest

/-- Model of Python `needle in hay` on strings. -/
def strIn (needle hay : String) : Bool := containsSub needle.data hay.data

/-- Model of Python `s.rstrip(c)`: drop every trailing occurrence of `c`. -/
def rstripAll (s : String) (c : Char) : String :=
  ⟨(s.data.reverse.dropWhile (fun d => d == c)).reverse⟩

/-- Model of Python `s.startswith(p)`. -/
def startsWithStr (s p : String) : Bool := p.data.isPrefixOf s.data

/-- Model of Python slicing `s[:n]`. -/
def takeStr (s : String) (n : Nat) : String := ⟨s.data.take n⟩

/-- Model of Python `s.strip()`: drop whitespace from both ends. -/
def stripStr (s : String) : String :=
  ⟨((s.data.dropWhile Char.isWhitespace).reverse.dropWhile Char.isWhitespace).reverse⟩

/-- Helper for `splitOnNl`: split a character list at newline characters. -/
def splitNlChars : List Char → List Char → List (List Char)
  | [], acc => [acc.reverse]
  | c :: rest, acc =>
    if c = '\n' then acc.reverse :: splitNlChars rest []
    else splitNlChars rest (c :: acc)

/-- Model of Python `s.split("\n")` (always returns at least one piece). -/
def splitOnNl (s : String) : List String :=
  (splitNlChars s.data []).map (fun l => ⟨l⟩)

/-- Model of Python `"\n".join(lines)`. -/
def joinNl : List String → String
  | [] => ""
  | [s] => s
  | s :: rest => s ++ "\n" ++ joinNl rest

/-- Lexicographic order on character lists by code point, the order Python
uses to compare strings. -/
def lexLeB : List Char → List Char → Bool
  | [], _ => true
  | _ :: _, [] => false
  | a :: as, b :: bs =>
    if a.toNat < b.toNat then true
    else if b.toNat < a.toNat then false
    else lexLeB as bs

/-- Model of Python string `<=` as a decidable relation. -/
def strLe (a b : String) : Prop := lexLeB a.data b.data = true

instance : DecidableRel strLe := fun _ _ => inferInstanceAs (Decidable (_ = true))

/-! ## scanner.py: `_time_ago` -/

/-- Embedding of scanner.py `_time_ago`; both instants in epoch seconds.
Python's integer `//` agrees with `Nat` division on the non-negative values
reached past the first guard. -/
def time_ago (now commitTime : Int) : String :=
  let seconds : Int := now - commitTime
  if seconds < 60 then "just now"
  else
    let minutes : Nat := seconds.toNat / 60
    if minutes < 60 then toString minutes ++ "m ago"
    else
      let hours : Nat := minutes / 60
      if hours < 24 then toString hours ++ "h ago"
      else
        let days : Nat := hours / 24
        toString days ++ "d ago"

/-! ## worklist.py -/

/-- Embedding of the worklist.py `WorkItem` dataclass. -/
structure WorkItem where
  id : Nat
  description : String
  created_at : Int
  status : String
  repo : Option String
  completed_at : Option Int
deriving DecidableEq

/-- Embedding of worklist.py `_next_id`. -/
def next_id (items : List WorkItem) : Nat :=
  if items.isEmpty then 1
  else (items.map WorkItem.id).foldl Nat.max 0 + 1

/-- Embedding of worklist.py `add_item`; the persisted store is passed in and
returned explicitly (`load_worklist`/`save_worklist` move the same list to and
from disk).  `t` is the `time.time()` the call observes. -/
def add_item (items : List WorkItem) (description : String) (repo : Option String)
    (t : Int) : WorkItem × List WorkItem :=
  let item : WorkItem := ⟨next_id items, description, t, "open", repo, none⟩
  (item, items ++ [item])

/-- Result of `complete_item`: the returned value, the store after the call,
and whether `save_worklist` ran. -/
structure CompleteResult where
  result : Option WorkItem
  items : List WorkItem
  wrote : Bool
deriving DecidableEq

/-- Embedding of worklist.py `complete_item` (the first id match is mutated,
mirroring the Python loop). -/
def complete_item : List WorkItem → Nat → Int → CompleteResult
  | [], _, _ => ⟨none, [], false⟩
  | item :: rest, item_id, t =>
    if item.id = item_id then
      if item.status = "done" then ⟨none, item :: rest, false⟩
      else
        let updated : WorkItem :=
          ⟨item.id, item.description, item.created_at, "done", item.repo, some t⟩
        ⟨some updated, updated :: rest, true⟩
    else
      let r := complete_item rest item_id t
      ⟨r.result, item :: r.items, r.wrote⟩

/-! ## scanner.py: data model -/

/-- One commit as the scanner reads it off GitPython: hex sha, author name,
commit timestamp, message, `stats.total["files"]`, and `stats.files` keys. -/
structure Commit where
  hexsha : String
  authorName : String
  committedDate : Int
  message : String
  statsTotalFiles : Nat
  statsFilePaths : List String
deriving DecidableEq

/-- One local branch: its name and its history newest first, as
`iter_commits(ref)` yields it. -/
structure Branch where
  name : String
  commits : List Commit
deriving DecidableEq

/-- One `index.diff(...)` entry; `""` models a `None` path. -/
structure DiffEntry where
  bPath : String
  aPath : String
  changeType : String
deriving DecidableEq

/-- Embedding of config.py `AgentsConfig`. -/
structure AgentsConfig where
  authors : List String
  branch_patterns : List String
deriving DecidableEq

/-- The config.py default agent classification inputs. -/
def defaultAgentsConfig : AgentsConfig :=
  ⟨["claude", "copilot", "cursor", "devin", "codex", "github-actions", "bot"],
   ["agent/", "claude/", "copilot/", "devin/", "cursor/"]⟩

/-- A git repository as the scanner observes it: one field per git query
scan_repo issues.  `activeBranchName = none` models a detached HEAD (the
`TypeError` branch), `headValid` is `repo.head.is_valid()`, the numstat
fields hold the already-parsed `git diff --numstat` tables, `revListCounts`
the parsed `rev-list --left-right --count` output. -/
structure GitRepo where
  activeBranchName : Option String
  headValid : Bool
  untrackedFiles : List String
  indexDiffHead : List DiffEntry
  indexDiffNone : List DiffEntry
  unstagedNumstat : List (String × Nat × Nat)
  stagedNumstat : List (String × Nat × Nat)
  stashLines : List String
  trackingBranchName : Option String
  revListCounts : Nat × Nat
  headCommits : List Commit
  branches : List Branch

/-- Embedding of the scanner.py `FileChange` dataclass. -/
structure FileChange where
  path : String
  status : String
  stage : String
  insertions : Nat
  deletions : Nat
deriving DecidableEq

/-- Embedding of the scanner.py `CommitInfo` dataclass. -/
structure CommitInfo where
  sha : String
  message : String
  ago : String
  timestamp : Int
  body : String
  files : List String
deriving DecidableEq

/-- Embedding of the scanner.py `BranchInfo` dataclass. -/
structure BranchInfo where
  name : String
  last_commit_ago : String
  timestamp : Int
deriving DecidableEq

/-- Embedding of the scanner.py `AgentSession` dataclass. -/
structure AgentSession where
  agent : String
  branch : String
  commit_count : Nat
  files_changed : Nat
  first_commit_ago : String
  last_commit_ago : String
  first_commit_ts : Int
  last_commit_ts : Int
  status : String
deriving DecidableEq

/-- Embedding of the scanner.py `RepoStatus` dataclass. -/
structure RepoStatus where
  path : String
  name : String
  current_branch : String
  dirty_files : Nat
  untracked_files : Nat
  staged_files : Nat
  stash_count : Nat
  ahead : Nat
  behind : Nat
  last_commit_ago : String
  recent_branches : List BranchInfo
  recent_commits : List CommitInfo
  agent_sessions : List AgentSession
  changed_files : List FileChange
  stash_entries : List String
deriving DecidableEq

/-! ## scanner.py: helpers -/

/-- Embedding of scanner.py `_collect_stashes` on a healthy `stash list` call. -/
def collect_stashes (repo : GitRepo) : Nat × List String :=
  (repo.stashLines.length, repo.stashLines)

/-- The `_STATUS_MAP.get(change_type, "modified")` classification. -/
def changeStatus (ct : String) : String :=
  if ct = "M" then "modified"
  else if ct = "A" then "added"
  else if ct = "D" then "deleted"
  else if ct = "R" then "renamed"
  else "modified"

/-- The `diff_item.b_path or diff_item.a_path` path choice. -/
def diffPath (d : DiffEntry) : String := if d.bPath ≠ "" then d.bPath else d.aPath

/-- The `numstat.get(path, (0, 0))` lookup on a parsed numstat table. -/
def numstatGet (table : List (String × Nat × Nat)) (path : String) : Nat × Nat :=
  match table.find? (fun e => e.1 == path) with
  | some e => e.2
  | none => (0, 0)

/-- Embedding of scanner.py `_collect_changed_files`. -/
def collect_changed_files (repo : GitRepo) : List FileChange :=
  if repo.headValid = false then
    repo.untrackedFiles.map (fun p => FileChange.mk p ("untracked") ("untracked") 0 0)
  else
    let unstaged := repo.indexDiffNone.map (fun d =>
      let path := diffPath d
      let nd := numstatGet repo.unstagedNumstat path
      FileChange.mk path (changeStatus d.changeType) "unstaged" nd.1 nd.2)
    let staged := repo.indexDiffHead.map (fun d =>
      let path := diffPath d
      let nd := numstatGet repo.stagedNumstat path
      FileChange.mk path (changeStatus d.changeType) "staged" nd.1 nd.2)
    let untracked := repo.untrackedFiles.map (fun p =>
      FileChange.mk p ("untracked") ("untracked") 0 0)
    unstaged ++ staged ++ untracked

/-- Embedding of scanner.py `_ahead_behind`. -/
def ahead_behind (repo : GitRepo) : Nat × Nat :=
  match repo.activeBranchName with
  | none => (0, 0)
  | some _ =>
    match repo.trackingBranchName with
    | none => (0, 0)
    | some _ => repo.revListCounts

/-- Embedding of scanner.py `_recent_branches`.  A branch without a resolvable
tip commit hits the `except: continue` arm and is skipped. -/
def recent_branches (repo : GitRepo) (now : Int) (recent_days : Nat) : List BranchInfo :=
  let cutoff : Int := now - (recent_days * 86400 : Nat)
  let collected := repo.branches.filterMap (fun b =>
    match b.commits with
    | [] => none
    | c :: _ =>
      if cutoff ≤ c.committedDate then
        some (BranchInfo.mk b.name (time_ago now c.committedDate) c.committedDate)
      else none)
  let sorted := collected.insertionSort (fun x y => y.timestamp ≤ x.timestamp)
  match repo.activeBranchName with
  | some cur => sorted.filter (fun b => b.name ≠ cur)
  | none => sorted

/-- The `CommitInfo` record the `_recent_commits` loop body builds for one
retained commit. -/
def commitInfoOf (now : Int) (c : Commit) : CommitInfo :=
  let msgLines := splitOnNl (stripStr c.message)
  let firstLine := msgLines.headD ("")
  let body := stripStr (joinNl (msgLines.drop 1))
  CommitInfo.mk (takeStr c.hexsha 7) firstLine (time_ago now c.committedDate)
    c.committedDate body (c.statsFilePaths.take 20)

/-- The `_recent_commits` walk over the (at most 50) examined commits:
stop at the first commit older than the cutoff, skip author mismatches. -/
def recentCommitsLoop (author : String) (now cutoff : Int) : List Commit → List CommitInfo
  | [] => []
  | c :: rest =>
    if c.committedDate < cutoff then []
    else if author ≠ "" ∧ strIn (lowerStr author) (lowerStr c.authorName) = false then
      recentCommitsLoop author now cutoff rest
    else
      commitInfoOf now c :: recentCommitsLoop author now cutoff rest

/-- Embedding of scanner.py `_recent_commits`. -/
def recent_commits (repo : GitRepo) (author : String) (now : Int) : List CommitInfo :=
  if repo.headValid = false then []
  else recentCommitsLoop author now (now - 86400) (repo.headCommits.take 50)

/-! ## scanner.py: agent session detection -/

/-- Embedding of scanner.py `_match_author_agent`. -/
def match_author_agent (author_name : String) : List String → String
  | [] => ""
  | p :: rest =>
    if strIn (lowerStr p) (lowerStr author_name) then rstripAll (lowerStr p) '-'
    else match_author_agent author_name rest

/-- Embedding of scanner.py `_match_branch_agent`. -/
def match_branch_agent (branch_name : String) : List String → String
  | [] => ""
  | p :: rest =>
    if startsWithStr branch_name p then rstripAll p '/'
    else match_branch_agent branch_name rest

/-- The `sessions_map` dictionary, keyed by (agent, branch), in Python's
insertion order. -/
abbrev SessionsMap := List ((String × String) × List (Int × Nat))

/-- `sessions_map.setdefault(key, []).append(v)` on the insertion-ordered map. -/
def mapAppend (m : SessionsMap) (key : String × String) (v : Int × Nat) : SessionsMap :=
  match m with
  | [] => [(key, [v])]
  | (k, vs) :: rest =>
    if k = key then (k, vs ++ [v]) :: rest
    else (k, vs) :: mapAppend rest key v

/-- The per-branch commit walk of `_detect_agent_sessions` over the (at most
100) examined commits.  `agent = author_agent or branch_agent`; an
unattributed commit is skipped on a non-agent branch and ends the walk on an
agent branch. -/
def walkBranch (cfg : AgentsConfig) (branchAgent branchName : String) :
    List Commit → SessionsMap → SessionsMap
  | [], m => m
  | c :: rest, m =>
    let authorAgent := match_author_agent c.authorName cfg.authors
    let agent := if authorAgent ≠ "" then authorAgent else branchAgent
    if agent = "" then
      if branchAgent = "" then walkBranch cfg branchAgent branchName rest m
      else m
    else
      walkBranch cfg branchAgent branchName rest
        (mapAppend m (agent, branchName) (c.committedDate, c.statsTotalFiles))

/-- Session synthesis for one non-empty (agent, branch) bucket.  The float
comparison `total_seconds()/3600 < 1` (resp. `< 24`) on integral-second
instants is exactly `now - last < 3600` (resp. `< 86400`). -/
def sessionOfBucket (now : Int) : (String × String) × List (Int × Nat) → Option AgentSession
  | (_, []) => none
  | ((agent, branch), d :: ds) =>
    let firstTs := (ds.map Prod.fst).foldl min d.1
    let lastTs := (ds.map Prod.fst).foldl max d.1
    let totalFiles := ((d :: ds).map Prod.snd).sum
    let status :=
      if now - lastTs < 3600 then "active"
      else if now - lastTs < 86400 then "recent"
      else "stale"
    some (AgentSession.mk agent branch (d :: ds).length totalFiles
      (time_ago now firstTs) (time_ago now lastTs) firstTs lastTs status)

/-- Embedding of scanner.py `_detect_agent_sessions`. -/
def detect_agent_sessions (repo : GitRepo) (cfg : AgentsConfig) (now : Int) :
    List AgentSession :=
  let m := repo.branches.foldl (fun acc b =>
    walkBranch cfg (match_branch_agent b.name cfg.branch_patterns) b.name
      (b.commits.take 100) acc) []
  let sessions := m.filterMap (sessionOfBucket now)
  sessions.insertionSort (fun a b => b.last_commit_ts ≤ a.last_commit_ts)

/-! ## scanner.py: scan_repo / scan_repos -/

/-- `Path(repo_path).name`. -/
def pathBaseName (p : String) : String :=
  ((p.splitOn ("/")).filter (fun s => s ≠ "")).getLastD ("")

/-- Embedding of scanner.py `scan_repo` on an already-opened repository (the
`Repo(repo_path)` validity test lives in `scan_repos`' world map below). -/
def scan_repo (repo_path : String) (repo : GitRepo) (author : String)
    (recent_days : Nat) (cfg : AgentsConfig) (now : Int) : RepoStatus :=
  let name := pathBaseName repo_path
  let current_branch :=
    match repo.activeBranchName with
    | some n => n
    | none => "detached HEAD"
  let untracked := repo.untrackedFiles.length
  let staged := if repo.headValid then repo.indexDiffHead.length else 0
  let dirty := repo.indexDiffNone.length
  let stash := collect_stashes repo
  let changed := collect_changed_files repo
  let ab := ahead_behind repo
  let lastAgo :=
    if repo.headValid then
      match repo.headCommits with
      | [] => ""
      | c :: _ => time_ago now c.committedDate
    else ""
  RepoStatus.mk repo_path name current_branch dirty untracked staged stash.1
    ab.1 ab.2 lastAgo (recent_branches repo now recent_days)
    (recent_commits repo author now) (detect_agent_sessions repo cfg now)
    changed stash.2

/-- Embedding of scanner.py `scan_repos`.  `world` maps a path to its
repository when `Repo(path)` succeeds and to `none` when it raises
`InvalidGitRepositoryError` (the `scan_repo` arm that returns `None`). -/
def scan_repos (world : String → Option GitRepo) (paths : List String)
    (author : String) (recent_days : Nat) (cfg : AgentsConfig) (now : Int) :
    List RepoStatus :=
  paths.foldl (fun acc p =>
    match world p with
    | none => acc
    | some repo => acc ++ [scan_repo p repo author recent_days cfg now]) []

/-! ## discovery.py -/

/-- A directory tree: name, whether a `.git` entry is present, child
directories.  Plain files are not modelled (the walker only ever recurses
into directories). -/
inductive FSEntry where
  | dir (name : String) (hasGit : Bool) (children : List FSEntry)

/-- Name of a directory entry. -/
def FSEntry.nameOf : FSEntry → String
  | .dir n _ _ => n

/-- Does the directory contain `.git`? -/
def FSEntry.gitFlag : FSEntry → Bool
  | .dir _ g _ => g

/-- Child directories. -/
def FSEntry.childrenOf : FSEntry → List FSEntry
  | .dir _ _ cs => cs

/-- Python `"/".join(segs)`. -/
def joinSlash : List String → String
  | [] => ""
  | [s] => s
  | s :: rest => s ++ "/" ++ joinSlash rest

/-- Canonical paths are segment lists; `str(directory)` renders one. -/
def renderPath (segs : List String) : String := "/" ++ joinSlash segs

/-- The mutable `repos`/`seen` pair threaded through `_walk_for_repos`:
discovered repository positions (in discovery order) and the rendered path
strings already recorded. -/
structure WalkState where
  repos : List (List String)
  seen : List String

/-- The hidden/noise-directory skip of discovery.py line 57. -/
def skipDirName (n : String) : Bool :=
  startsWithStr n (".") || n == "node_modules" || n == "__pycache__" ||
    n == ".venv" || n == "venv"

mutual

/-- Embedding of discovery.py `_walk_for_repos`.  Child enumeration order
(Python sorts `iterdir()`) only affects discovery order, which the final
sort erases, so children are visited in list order. -/
def walkForRepos (e : FSEntry) (path : List String) (remainingDepth : Int)
    (st : WalkState) : WalkState :=
  if remainingDepth < 0 then st
  else
    match e with
    | .dir _ hasGit children =>
      if hasGit then
        let rendered := renderPath path
        if rendered ∈ st.seen then st
        else ⟨st.repos ++ [path], rendered :: st.seen⟩
      else walkChildList children path remainingDepth st

/-- The `for entry in entries` loop of `_walk_for_repos`. -/
def walkChildList (cs : List FSEntry) (path : List String) (remainingDepth : Int)
    (st : WalkState) : WalkState :=
  match cs with
  | [] => st
  | c :: rest =>
    let st2 :=
      if skipDirName c.nameOf then st
      else walkForRepos c (path ++ [c.nameOf]) (remainingDepth - 1) st
    walkChildList rest path remainingDepth st2

end

/-- Resolve a root directory inside the tree (`Path(d).resolve()` plus the
`is_dir()` test: a failed lookup is a silently skipped root). -/
def lookupPath (e : FSEntry) : List String → Option FSEntry
  | [] => some e
  | s :: rest =>
    match e.childrenOf.find? (fun c => c.nameOf == s) with
    | some c => lookupPath c rest
    | none => none

/-- Embedding of discovery.py `discover_repos` over a filesystem tree `fs`;
roots are given as canonical segment paths into `fs`. -/
def discover_repos (fs : FSEntry) (dirs : List (List String)) (depth : Int) :
    List String :=
  let st := dirs.foldl (fun st d =>
    match lookupPath fs d with
    | none => st
    | some e => walkForRepos e d depth st) ⟨[], []⟩
  (st.repos.map renderPath).insertionSort strLe

/-- A well-formed directory name: nonempty and free of the path separator
(true of every name a real filesystem can hold). -/
def wfNameB (s : String) : Bool := decide (s ≠ "" ∧ '/' ∉ s.data)

mutual

/-- Well-formed tree: every name is well formed and sibling names are
distinct, as on a real filesystem. -/
def wfTreeB : FSEntry → Bool
  | .dir _ _ children =>
    wfChildrenB children && decide ((children.map FSEntry.nameOf).Nodup)

/-- Well-formedness of a list of sibling subtrees. -/
def wfChildrenB : List FSEntry → Bool
  | [] => true
  | c :: rest => wfNameB c.nameOf && wfTreeB c && wfChildrenB rest

end

/-- Is `child` strictly inside the directory `parent` (path-string level)? -/
def nestedIn (child parent : String) : Bool :=
  (parent.data ++ ['/']).isPrefixOf child.data

/-! ## Specification-side predicates used by the theorems -/

/-- An agent identifier is a normalized configured pattern: a lowercased
author pattern with trailing hyphens stripped, or a branch-name pattern with
trailing slashes stripped. -/
def normalizedAgent (cfg : AgentsConfig) (a : String) : Prop :=
  (∃ p ∈ cfg.authors, a = rstripAll (lowerStr p) '-') ∨
    (∃ p ∈ cfg.branch_patterns, a = rstripAll p '/')

/-- No discovered position lies strictly inside another discovered position. -/
def PairwiseNonPref (l : List (List String)) : Prop :=
  ∀ p ∈ l, ∀ q ∈ l, p ≠ q → ¬ (q <+: p)

/-- Walk-state invariant behind output dedup: rendered repo paths are
distinct and every one has been recorded in `seen`. -/
def WalkNodupInv (st : WalkState) : Prop :=
  (st.repos.map renderPath).Nodup ∧ ∀ p ∈ st.repos, renderPath p ∈ st.seen

/-- All names in all recorded positions are well formed. -/
def SegsWf (l : List (List String)) : Prop :=
  ∀ q ∈ l, ∀ s ∈ q, wfNameB s = true

/-! ## Concrete fixtures for the scenario claims -/

/-- The single commit of the recent-commits scenario: authored by Alice,
30 minutes (1800 seconds) before the scan instant. -/
def aliceCommit : Commit :=
  ⟨"abc1234def5678", "Alice", 998200, "Fix parser bug\n\nDetails here\n", 1,
   ["src/x.py"]⟩

/-- The scan instant of the recent-commits scenario. -/
def aliceNow : Int := 1000000

/-- A repository whose only commit is `aliceCommit`. -/
def aliceRepo : GitRepo :=
  ⟨some ("main"), true, [], [], [], [], [], [], none, (0, 0), [aliceCommit],
   [⟨"main", [aliceCommit]⟩]⟩

/-- An empty repository (HEAD invalid, no commits) holding exactly two
untracked files. -/
def emptyRepoC4 : GitRepo :=
  ⟨some ("main"), false, ["a.txt", "b.txt"], [], [], [], [], [], none, (0, 0),
   [], []⟩

/-- Newest commit of the agent-branch scenario (generic CI author that
matches no configured author pattern). -/
def ciCommit1 : Commit := ⟨"c1sha00", "Build Service", 1000000, "agent step 3", 2, ["f1"]⟩

/-- Second commit of the agent-branch scenario. -/
def ciCommit2 : Commit := ⟨"c2sha00", "Build Service", 999900, "agent step 2", 1, ["f2"]⟩

/-- Third commit of the agent-branch scenario. -/
def ciCommit3 : Commit := ⟨"c3sha00", "Build Service", 999800, "agent step 1", 3, ["f3"]⟩

/-- Oldest commit of the agent-branch scenario: a human commit. -/
def humanCommit : Commit := ⟨"c4sha00", "Alice", 999000, "base work", 1, ["f4"]⟩

/-- The agent-branch scenario repository: branch `claude/fix-bug` holding
three CI commits followed (older) by a human commit. -/
def agentBranchRepo : GitRepo :=
  ⟨some ("claude/fix-bug"), true, [], [], [], [], [], [], none, (0, 0),
   [ciCommit1, ciCommit2, ciCommit3, humanCommit],
   [⟨"claude/fix-bug", [ciCommit1, ciCommit2, ciCommit3, humanCommit]⟩]⟩

/-- The scan instant of the agent-branch scenario (1 hour after the newest
commit, so the session status is "recent"). -/
def agentBranchNow : Int := 1003600

/-- Overlapping-roots filesystem: repository `/a` containing repository
`/a/b`. -/
def cexFS : FSEntry :=
  .dir ("") false [.dir ("a") true [.dir ("b") true []]]

/-- A well-formed filesystem with two sibling repositories. -/
def wfFS : FSEntry :=
  .dir ("") false [.dir ("alpha") true [], .dir ("beta") true []]

/-! ## Theorems

Helper lemmas come first; each claim is settled by exactly one theorem,
marked with its claim id in the doc comment. -/

/-- C5: the relative-time label is a pure function of the two instants with
the four documented buckets, numbers obtained by integer truncation. -/
theorem relative_time_buckets (now t : Int) :
    (now - t < 60 → time_ago now t = "just now") ∧
    (60 ≤ now - t → now - t < 3600 →
      time_ago now t = toString ((now - t).toNat / 60) ++ "m ago") ∧
    (3600 ≤ now - t → now - t < 86400 →
      time_ago now t = toString ((now - t).toNat / 3600) ++ "h ago") ∧
    (86400 ≤ now - t →
      time_ago now t = toString ((now - t).toNat / 86400) ++ "d ago") := by
  refine ⟨fun h => ?_, fun h1 h2 => ?_, fun h1 h2 => ?_, fun h1 => ?_⟩ <;>
    simp only [time_ago]
  · rw [if_pos h]
  · rw [if_neg (by omega), if_pos (by omega : (now - t).toNat / 60 < 60)]
  · rw [if_neg (by omega), if_neg (by omega : ¬ (now - t).toNat / 60 < 60),
      if_pos (by omega : (now - t).toNat / 60 / 60 < 24)]
    have h3 : (now - t).toNat / 60 / 60 = (now - t).toNat / 3600 := by omega
    rw [h3]
  · rw [if_neg (by omega), if_neg (by omega : ¬ (now - t).toNat / 60 < 60),
      if_neg (by omega : ¬ (now - t).toNat / 60 / 60 < 24)]
    have h3 : (now - t).toNat / 60 / 60 / 24 = (now - t).toNat / 86400 := by omega
    rw [h3]

/-- Witness for C5 at a 30-minute gap. -/
theorem relative_time_buckets_witness :
    (60 ≤ (1800 : Int) - 0 ∧ (1800 : Int) - 0 < 3600) ∧
    time_ago 1800 0 = toString (((1800 : Int) - 0).toNat / 60) ++ "m ago" :=
  ⟨by decide, (relative_time_buckets 1800 0).2.1 (by decide) (by decide)⟩

/-- C9: on a non-past instant (elapsed seconds zero or negative) the
relative-time label is total and returns "just now". -/
theorem time_ago_nonpast (now t : Int) (h : now ≤ t) :
    time_ago now t = "just now" := by
  simp only [time_ago]
  rw [if_pos (by omega : now - t < 60)]

/-- Witness for C9 with a future instant. -/
theorem time_ago_nonpast_witness :
    (5 : Int) ≤ 10 ∧ time_ago 5 10 = "just now" :=
  ⟨by decide, time_ago_nonpast 5 10 (by decide)⟩

/-- Completing an id whose first store match is already done is a read-only
no-op returning not-found. -/
theorem complete_found_done (items : List WorkItem) (item_id : Nat) (t : Int)
    (it : WorkItem) (hf : items.find? (fun x => x.id == item_id) = some it)
    (hd : it.status = "done") :
    complete_item items item_id t = ⟨none, items, false⟩ := by
  induction items with
  | nil => simp at hf
  | cons x xs ih =>
    by_cases hid : x.id = item_id
    · rw [List.find?_cons_of_pos _ (by simpa using hid)] at hf
      cases hf
      simp [complete_item, hid, hd]
    · rw [List.find?_cons_of_neg _ (by simpa using hid)] at hf
      simp [complete_item, hid, ih hf]

/-- Completing an id whose first store match is open marks it done, stamps
the completion time, and writes. -/
theorem complete_found_open (items : List WorkItem) (item_id : Nat) (t : Int)
    (it : WorkItem) (hf : items.find? (fun x => x.id == item_id) = some it)
    (hd : it.status ≠ "done") :
    (complete_item items item_id t).result =
        some ⟨it.id, it.description, it.created_at, "done", it.repo, some t⟩ ∧
      (complete_item items item_id t).wrote = true := by
  induction items with
  | nil => simp at hf
  | cons x xs ih =>
    by_cases hid : x.id = item_id
    · rw [List.find?_cons_of_pos _ (by simpa using hid)] at hf
      cases hf
      simp [complete_item, hid, hd]
    · rw [List.find?_cons_of_neg _ (by simpa using hid)] at hf
      simp [complete_item, hid, ih hf]

/-- A successful completion makes an immediate second completion of the same
id a read-only no-op returning not-found. -/
theorem complete_twice_noop (items : List WorkItem) (item_id : Nat) (t t2 : Int)
    (h : (complete_item items item_id t).result.isSome = true) :
    complete_item (complete_item items item_id t).items item_id t2 =
      ⟨none, (complete_item items item_id t).items, false⟩ := by
  induction items with
  | nil => simp [complete_item] at h
  | cons x xs ih =>
    by_cases hid : x.id = item_id
    · by_cases hd : x.status = "done"
      · simp [complete_item, hid, hd] at h
      · simp [complete_item, hid, hd]
    · simp only [complete_item, if_neg hid] at h ⊢
      simp only [Option.isSome] at h
      simp [complete_item, hid, ih (by simpa using h)]

/-- C6: complete_item on an already-done id returns not-found without
writing; on an open id it transitions the item to done and stamps the
completion time; a second call on the same id is a not-found no-op. -/
theorem complete_item_contract (items : List WorkItem) (item_id : Nat)
    (t t2 : Int) (it : WorkItem) :
    (items.find? (fun x => x.id == item_id) = some it → it.status = "done" →
      complete_item items item_id t = ⟨none, items, false⟩) ∧
    (items.find? (fun x => x.id == item_id) = some it → it.status ≠ "done" →
      (complete_item items item_id t).result =
          some ⟨it.id, it.description, it.created_at, "done", it.repo, some t⟩ ∧
        (complete_item items item_id t).wrote = true) ∧
    ((complete_item items item_id t).result.isSome = true →
      complete_item (complete_item items item_id t).items item_id t2 =
        ⟨none, (complete_item items item_id t).items, false⟩) :=
  ⟨fun hf hd => complete_found_done items item_id t it hf hd,
   fun hf hd => complete_found_open items item_id t it hf hd,
   fun h => complete_twice_noop items item_id t t2 h⟩

/-- Witness for C6: double completion on a one-item store. -/
theorem complete_item_contract_witness :
    complete_item (complete_item [⟨1, "task", 0, "open", none, none⟩] 1 5).items 1 9 =
      ⟨none, (complete_item [⟨1, "task", 0, "open", none, none⟩] 1 5).items, false⟩ :=
  (complete_item_contract [⟨1, "task", 0, "open", none, none⟩] 1 5 9
    ⟨1, "task", 0, "open", none, none⟩).2.2 (by decide)

/-- The fold initial value is a lower bound of a Nat max fold. -/
theorem le_foldl_max (l : List Nat) (b : Nat) : b ≤ l.foldl Nat.max b := by
  induction l generalizing b with
  | nil => simp
  | cons c cs ih =>
    simpa using le_trans (Nat.le_max_left b c) (ih (Nat.max b c))

/-- Every member is bounded by a Nat max fold. -/
theorem mem_le_foldl_max (l : List Nat) (b x : Nat) (hx : x ∈ l) :
    x ≤ l.foldl Nat.max b := by
  induction l generalizing b with
  | nil => cases hx
  | cons c cs ih =>
    rcases List.mem_cons.mp hx with h | h
    · subst h
      simpa using le_trans (Nat.le_max_right b x) (le_foldl_max cs _)
    · simpa using ih (Nat.max b c) h

/-- C7: add_item assigns id = (max existing id, or 0 when empty) + 1; the
new id strictly exceeds every stored id, grows strictly across successive
adds, and never reuses the id of a done item. -/
theorem add_item_fresh_ids (items : List WorkItem) (d1 : String)
    (r1 : Option String) (t1 : Int) (d2 : String) (r2 : Option String) (t2 : Int) :
    (add_item items d1 r1 t1).1.id = (items.map WorkItem.id).foldl Nat.max 0 + 1 ∧
    (∀ j ∈ items, j.id < (add_item items d1 r1 t1).1.id) ∧
    (add_item items d1 r1 t1).1.id <
      (add_item (add_item items d1 r1 t1).2 d2 r2 t2).1.id ∧
    (∀ j ∈ items, j.status = "done" → (add_item items d1 r1 t1).1.id ≠ j.id) := by
  have hnext : ∀ l : List WorkItem, next_id l = (l.map WorkItem.id).foldl Nat.max 0 + 1 := by
    intro l
    cases l with
    | nil => rfl
    | cons x xs => simp [next_id]
  have hfst : (add_item items d1 r1 t1).1.id = next_id items := rfl
  have hmem : ∀ j ∈ items, j.id < (add_item items d1 r1 t1).1.id := by
    intro j hj
    rw [hfst, hnext]
    exact Nat.lt_succ_of_le (mem_le_foldl_max _ 0 _ (List.mem_map_of_mem WorkItem.id hj))
  refine ⟨hfst.trans (hnext items), hmem, ?_, fun j hj _ => (hmem j hj).ne'⟩
  have hsnd : (add_item (add_item items d1 r1 t1).2 d2 r2 t2).1.id =
      next_id (add_item items d1 r1 t1).2 := rfl
  rw [hsnd, hnext]
  refine Nat.lt_succ_of_le (mem_le_foldl_max _ 0 _ ?_)
  exact List.mem_map_of_mem WorkItem.id (by simp [add_item])

/-- Witness for C7: the id of a done item is not reused. -/
theorem add_item_fresh_ids_witness :
    (⟨1, "old", 0, "done", none, some 5⟩ : WorkItem) ∈
        ([⟨1, "old", 0, "done", none, some 5⟩] : List WorkItem) ∧
    (add_item [⟨1, "old", 0, "done", none, some 5⟩] "new" none 9).1.id ≠
      (⟨1, "old", 0, "done", none, some 5⟩ : WorkItem).id :=
  ⟨by decide,
   (add_item_fresh_ids [⟨1, "old", 0, "done", none, some 5⟩] "new" none 9
      "x" none 10).2.2.2 ⟨1, "old", 0, "done", none, some 5⟩ (by decide) rfl⟩

/-- The scan_repos fold, started from any accumulator, appends exactly the
snapshots of the valid paths in input order. -/
theorem scan_repos_foldl_general (world : String → Option GitRepo)
    (author : String) (recent_days : Nat) (cfg : AgentsConfig) (now : Int)
    (paths : List String) :
    ∀ acc : List RepoStatus,
      paths.foldl (fun acc p =>
        match world p with
        | none => acc
        | some repo => acc ++ [scan_repo p repo author recent_days cfg now]) acc =
      acc ++ paths.filterMap (fun p => (world p).map
        (fun repo => scan_repo p repo author recent_days cfg now)) := by
  induction paths with
  | nil => intro acc; simp
  | cons p ps ih =>
    intro acc
    cases hw : world p with
    | none => simp [hw, ih]
    | some repo => simp [hw, ih]

/-- C8: the orchestrator returns exactly the snapshots of the paths that
resolve to valid repositories, in input order, silently omitting every path
whose repository open signals not-a-repository. -/
theorem scan_repos_skips_invalid (world : String → Option GitRepo)
    (paths : List String) (author : String) (recent_days : Nat)
    (cfg : AgentsConfig) (now : Int) :
    scan_repos world paths author recent_days cfg now =
      paths.filterMap (fun p => (world p).map
        (fun repo => scan_repo p repo author recent_days cfg now)) := by
  unfold scan_repos
  simpa using scan_repos_foldl_general world author recent_days cfg now paths []

/-- The recent-commits loop equals take-while-young then author-filter then
record construction. -/
theorem recentCommitsLoop_spec (author : String) (now cutoff : Int) (l : List Commit) :
    recentCommitsLoop author now cutoff l =
      ((l.takeWhile (fun c => decide (cutoff ≤ c.committedDate))).filter
        (fun c => author == "" || strIn (lowerStr author) (lowerStr c.authorName))).map
        (commitInfoOf now) := by
  induction l with
  | nil => rfl
  | cons c rest ih =>
    by_cases h1 : c.committedDate < cutoff
    · have hd : decide (cutoff ≤ c.committedDate) = false := by
        simp only [decide_eq_false_iff_not]; omega
      simp [recentCommitsLoop, h1, hd]
    · have hd : decide (cutoff ≤ c.committedDate) = true := by
        simp only [decide_eq_true_eq]; omega
      by_cases h2 : author = ""
      · subst h2
        simp [recentCommitsLoop, h1, hd, List.filter_cons, ih]
      · by_cases h3 : strIn (lowerStr author) (lowerStr c.authorName) = true
        · simp [recentCommitsLoop, h1, h2, h3, hd, List.filter_cons, ih]
        · simp [recentCommitsLoop, h1, h2, h3, hd, List.filter_cons, ih]

/-- C2: the recent-commits walk takes at most 50 commits from HEAD newest
first, stops at the first commit older than 24 hours, skips (without
stopping) author mismatches case-insensitively; on the one-commit Alice
scenario it returns exactly that commit labelled "30m ago". -/
theorem recent_commits_window (repo : GitRepo) (author : String) (now : Int)
    (h : repo.headValid = true) :
    (recent_commits repo author now =
      (((repo.headCommits.take 50).takeWhile
          (fun c => decide (now - 86400 ≤ c.committedDate))).filter
        (fun c => author == "" || strIn (lowerStr author) (lowerStr c.authorName))).map
        (commitInfoOf now)) ∧
    recent_commits aliceRepo ("alice") aliceNow =
      [⟨"abc1234", "Fix parser bug", "30m ago", 998200, "Details here", ["src/x.py"]⟩] := by
  constructor
  · unfold recent_commits
    rw [h]
    simpa using recentCommitsLoop_spec author now (now - 86400) (repo.headCommits.take 50)
  · decide

/-- Witness for C2 on a repository with a valid HEAD. -/
theorem recent_commits_window_witness :
    aliceRepo.headValid = true ∧
    recent_commits aliceRepo ("alice") aliceNow =
      (((aliceRepo.headCommits.take 50).takeWhile
          (fun c => decide (aliceNow - 86400 ≤ c.committedDate))).filter
        (fun c => "alice" == "" || strIn (lowerStr ("alice")) (lowerStr c.authorName))).map
        (commitInfoOf aliceNow) :=
  ⟨rfl, (recent_commits_window aliceRepo ("alice") aliceNow rfl).1⟩

/-- C4: an empty repository (invalid HEAD) with exactly two untracked files
snapshots to an empty last-commit label, zero dirty and staged counts, two
untracked files, and exactly two untracked/untracked changed-file entries;
with an invalid HEAD the changed-file collection never consults the diff
fields. -/
theorem empty_repo_snapshot (repo_path : String) (repo : GitRepo) (author : String)
    (recent_days : Nat) (cfg : AgentsConfig) (now : Int)
    (h1 : repo.headValid = false)
    (h2 : repo.untrackedFiles = ["a.txt", "b.txt"])
    (h3 : repo.indexDiffNone = []) :
    (scan_repo repo_path repo author recent_days cfg now).last_commit_ago = "" ∧
    (scan_repo repo_path repo author recent_days cfg now).dirty_files = 0 ∧
    (scan_repo repo_path repo author recent_days cfg now).staged_files = 0 ∧
    (scan_repo repo_path repo author recent_days cfg now).untracked_files = 2 ∧
    (scan_repo repo_path repo author recent_days cfg now).changed_files =
      [⟨"a.txt", "untracked", "untracked", 0, 0⟩,
       ⟨"b.txt", "untracked", "untracked", 0, 0⟩] ∧
    (∀ r2 : GitRepo, r2.headValid = false →
      collect_changed_files r2 =
        r2.untrackedFiles.map (fun p => FileChange.mk p ("untracked") ("untracked") 0 0)) := by
  refine ⟨?_, ?_, ?_, ?_, ?_, fun r2 hr2 => by simp [collect_changed_files, hr2]⟩
  · simp [scan_repo, h1]
  · simp [scan_repo, h3]
  · simp [scan_repo, h1]
  · simp [scan_repo, h2]
  · simp [scan_repo, collect_changed_files, h1, h2]

/-- Witness for C4 on the concrete empty repository. -/
theorem empty_repo_snapshot_witness :
    (scan_repo ("/tmp/proj") emptyRepoC4 ("") 14 defaultAgentsConfig 0).untracked_files = 2 ∧
    (scan_repo ("/tmp/proj") emptyRepoC4 ("") 14 defaultAgentsConfig 0).changed_files =
      [⟨"a.txt", "untracked", "untracked", 0, 0⟩,
       ⟨"b.txt", "untracked", "untracked", 0, 0⟩] :=
  ⟨(empty_repo_snapshot ("/tmp/proj") emptyRepoC4 ("") 14 defaultAgentsConfig 0
      rfl rfl rfl).2.2.2.1,
   (empty_repo_snapshot ("/tmp/proj") emptyRepoC4 ("") 14 defaultAgentsConfig 0
      rfl rfl rfl).2.2.2.2.1⟩

/-- C1 counterexample: on branch claude/fix-bug with three consecutive
commits by an author matching no author pattern above a human commit, the
detector does not report commit_count 3 for (claude, claude/fix-bug). -/
theorem agent_branch_prefix_counterexample :
    ¬ ((detect_agent_sessions agentBranchRepo defaultAgentsConfig agentBranchNow).map
        (fun s => (s.agent, s.branch, s.commit_count)) =
      [("claude", "claude/fix-bug", 3)]) := by decide

/-- Appending one sample to a bucket grows the total sample count by one. -/
theorem mapAppend_length_sum (m : SessionsMap) (key : String × String) (v : Int × Nat) :
    ((mapAppend m key v).map (fun kv => kv.2.length)).sum =
      (m.map (fun kv => kv.2.length)).sum + 1 := by
  induction m with
  | nil => simp [mapAppend]
  | cons e rest ih =>
    obtain ⟨k, vs⟩ := e
    by_cases hk : k = key
    · simp [mapAppend, hk]
      omega
    · simp [mapAppend, hk, ih]
      omega

/-- On an agent-named branch the walk never stops: every examined commit is
attributed to some agent and accumulated. -/
theorem walkBranch_attributes_all (cfg : AgentsConfig) (bagent bname : String)
    (commits : List Commit) (m : SessionsMap) (hb : bagent ≠ "") :
    ((walkBranch cfg bagent bname commits m).map (fun kv => kv.2.length)).sum =
      (m.map (fun kv => kv.2.length)).sum + commits.length := by
  induction commits generalizing m with
  | nil => simp [walkBranch]
  | cons c rest ih =>
    by_cases ha : match_author_agent c.authorName cfg.authors = ""
    · simp only [walkBranch, ha, ne_eq, not_true_eq_false, if_false, hb,
        not_false_eq_true, if_true]
      rw [ih (mapAppend m (bagent, bname) (c.committedDate, c.statsTotalFiles)),
        mapAppend_length_sum]
      simp
      omega
    · simp only [walkBranch, ha, ne_eq, not_false_eq_true, if_true]
      rw [if_neg (by simp [ha]),
        ih (mapAppend m (match_author_agent c.authorName cfg.authors, bname)
          (c.committedDate, c.statsTotalFiles)),
        mapAppend_length_sum]
      simp
      omega

/-- C1 (amended): on an agent-named branch the detector never stops at an
unattributed commit — every one of the examined commits is accumulated — so
the scenario yields one AgentSession for (claude, claude/fix-bug) with
commit_count 4 (the human base commit included), not 3. -/
theorem agent_branch_walk_amended :
    (∀ (cfg : AgentsConfig) (bagent bname : String) (commits : List Commit)
        (m : SessionsMap), bagent ≠ "" →
      ((walkBranch cfg bagent bname commits m).map (fun kv => kv.2.length)).sum =
        (m.map (fun kv => kv.2.length)).sum + commits.length) ∧
    (detect_agent_sessions agentBranchRepo defaultAgentsConfig agentBranchNow).map
        (fun s => (s.agent, s.branch, s.commit_count)) =
      [("claude", "claude/fix-bug", 4)] :=
  ⟨fun cfg ba bn cs m hb => walkBranch_attributes_all cfg ba bn cs m hb, by decide⟩

/-- Witness for C1 (amended): even an author-unmatched commit is counted on
an agent-named branch. -/
theorem agent_branch_walk_amended_witness :
    ("claude" : String) ≠ "" ∧
    ((walkBranch defaultAgentsConfig ("claude") ("claude/fix-bug") [humanCommit] []).map
        (fun kv => kv.2.length)).sum = 0 + 1 := by
  constructor
  · decide
  · have h := agent_branch_walk_amended.1 defaultAgentsConfig ("claude")
      ("claude/fix-bug") [humanCommit] [] (by decide)
    simpa using h

/-- The author matcher returns either the empty string or the lowercased,
hyphen-stripped form of some configured pattern that occurs in the lowercased
author name. -/
theorem match_author_agent_cases (a : String) (ps : List String) :
    match_author_agent a ps = "" ∨
    ∃ p ∈ ps, strIn (lowerStr p) (lowerStr a) = true ∧
      match_author_agent a ps = rstripAll (lowerStr p) '-' := by
  induction ps with
  | nil => exact Or.inl rfl
  | cons p rest ih =>
    by_cases h : strIn (lowerStr p) (lowerStr a) = true
    · exact Or.inr ⟨p, List.mem_cons_self p rest, h, by simp [match_author_agent, h]⟩
    · rcases ih with h0 | ⟨q, hq, hs, he⟩
      · exact Or.inl (by simp [match_author_agent, h, h0])
      · exact Or.inr ⟨q, List.mem_cons_of_mem p hq, hs,
          by simp [match_author_agent, h, he]⟩

/-- The branch matcher returns either the empty string or the slash-stripped
form of some configured branch-name pattern the branch starts with. -/
theorem match_branch_agent_cases (b : String) (ps : List String) :
    match_branch_agent b ps = "" ∨
    ∃ p ∈ ps, startsWithStr b p = true ∧ match_branch_agent b ps = rstripAll p '/' := by
  induction ps with
  | nil => exact Or.inl rfl
  | cons p rest ih =>
    by_cases h : startsWithStr b p = true
    · exact Or.inr ⟨p, List.mem_cons_self p rest, h, by simp [match_branch_agent, h]⟩
    · rcases ih with h0 | ⟨q, hq, hs, he⟩
      · exact Or.inl (by simp [match_branch_agent, h, h0])
      · exact Or.inr ⟨q, List.mem_cons_of_mem p hq, hs,
          by simp [match_branch_agent, h, he]⟩

/-- The author matcher depends on the author name only through its
lowercasing. -/
theorem match_author_agent_lower_invariant (a b : String) (ps : List String)
    (h : lowerStr a = lowerStr b) :
    match_author_agent a ps = match_author_agent b ps := by
  induction ps with
  | nil => rfl
  | cons p rest ih => simp [match_author_agent, h, ih]

/-- Every bucket key after a map append is the appended key or an existing
key. -/
theorem mapAppend_fst_mem (m : SessionsMap) (key : String × String) (v : Int × Nat)
    (kv : (String × String) × List (Int × Nat)) (h : kv ∈ mapAppend m key v) :
    kv.1 = key ∨ ∃ kv2 ∈ m, kv.1 = kv2.1 := by
  induction m with
  | nil =>
    simp [mapAppend] at h
    exact Or.inl (by rw [h])
  | cons e rest ih =>
    obtain ⟨k, vs⟩ := e
    by_cases hk : k = key
    · simp only [mapAppend, if_pos hk, List.mem_cons] at h
      rcases h with h | h
      · exact Or.inl (by rw [h, hk])
      · exact Or.inr ⟨kv, List.mem_cons_of_mem _ h, rfl⟩
    · simp only [mapAppend, if_neg hk, List.mem_cons] at h
      rcases h with h | h
      · exact Or.inr ⟨(k, vs), List.mem_cons_self _ _, by rw [h]⟩
      · rcases ih h with h0 | ⟨kv2, hm, he⟩
        · exact Or.inl h0
        · exact Or.inr ⟨kv2, List.mem_cons_of_mem _ hm, he⟩

/-- The per-branch walk only ever inserts normalized agent identifiers. -/
theorem walkBranch_normalized (cfg : AgentsConfig) (bagent bname : String)
    (commits : List Commit) (m : SessionsMap)
    (hb : bagent = "" ∨ normalizedAgent cfg bagent)
    (hm : ∀ kv ∈ m, normalizedAgent cfg kv.1.1) :
    ∀ kv ∈ walkBranch cfg bagent bname commits m, normalizedAgent cfg kv.1.1 := by
  induction commits generalizing m with
  | nil => simpa [walkBranch] using hm
  | cons c rest ih =>
    intro kv hkv
    by_cases ha : match_author_agent c.authorName cfg.authors = ""
    · by_cases hbe : bagent = ""
      · subst hbe
        simp only [walkBranch, ha, ne_eq, not_true_eq_false, if_false, if_true] at hkv
        exact ih m hm kv hkv
      · simp only [walkBranch, ha, ne_eq, not_true_eq_false, if_false, hbe,
          not_false_eq_true, if_true] at hkv
        refine ih _ ?_ kv hkv
        intro kv2 h2
        rcases mapAppend_fst_mem _ _ _ kv2 h2 with h0 | ⟨kv3, h3, he⟩
        · rw [h0]
          exact hb.resolve_left hbe
        · rw [he]
          exact hm kv3 h3
    · simp only [walkBranch, ha, ne_eq, not_false_eq_true, if_true,
        if_neg (show ¬ match_author_agent c.authorName cfg.authors = "" from ha)] at hkv
      refine ih _ ?_ kv hkv
      intro kv2 h2
      rcases mapAppend_fst_mem _ _ _ kv2 h2 with h0 | ⟨kv3, h3, he⟩
      · rw [h0]
        rcases match_author_agent_cases c.authorName cfg.authors with h4 | ⟨p, hp, _, he4⟩
        · exact absurd h4 ha
        · exact Or.inl ⟨p, hp, he4⟩
      · rw [he]
        exact hm kv3 h3

/-- The whole-repository bucket fold only holds normalized agent
identifiers. -/
theorem detect_foldl_normalized (cfg : AgentsConfig) (branches : List Branch)
    (acc : SessionsMap) (hacc : ∀ kv ∈ acc, normalizedAgent cfg kv.1.1) :
    ∀ kv ∈ branches.foldl (fun acc b =>
        walkBranch cfg (match_branch_agent b.name cfg.branch_patterns) b.name
          (b.commits.take 100) acc) acc,
      normalizedAgent cfg kv.1.1 := by
  induction branches generalizing acc with
  | nil => simpa using hacc
  | cons b rest ih =>
    intro kv hkv
    simp only [List.foldl_cons] at hkv
    refine ih _ ?_ kv hkv
    intro kv2 h2
    refine walkBranch_normalized cfg _ b.name _ acc ?_ hacc kv2 h2
    rcases match_branch_agent_cases b.name cfg.branch_patterns with h0 | ⟨p, hp, _, he⟩
    · exact Or.inl h0
    · exact Or.inr (Or.inr ⟨p, hp, he⟩)

/-- A synthesized session carries its bucket's agent identifier. -/
theorem sessionOfBucket_agent (now : Int) (bucket : (String × String) × List (Int × Nat))
    (s : AgentSession) (h : sessionOfBucket now bucket = some s) :
    s.agent = bucket.1.1 := by
  obtain ⟨⟨agent, branch⟩, data⟩ := bucket
  cases data with
  | nil => simp [sessionOfBucket] at h
  | cons d ds =>
    simp only [sessionOfBucket, Option.some.injEq] at h
    rw [← h]

/-- C10: every emitted session's agent identifier is a normalized configured
pattern — an author-level match is the matched pattern lowercased with
trailing hyphens stripped (depending on the author name only through its
lowercasing), a branch-level match is the matched branch pattern with
trailing slashes stripped. -/
theorem agent_identifier_normalized (a1 a2 bn : String) (ps : List String)
    (repo : GitRepo) (cfg : AgentsConfig) (now : Int) (s : AgentSession) :
    (match_author_agent a1 ps ≠ "" →
      ∃ p ∈ ps, strIn (lowerStr p) (lowerStr a1) = true ∧
        match_author_agent a1 ps = rstripAll (lowerStr p) '-') ∧
    (lowerStr a1 = lowerStr a2 →
      match_author_agent a1 ps = match_author_agent a2 ps) ∧
    (match_branch_agent bn ps ≠ "" →
      ∃ p ∈ ps, startsWithStr bn p = true ∧
        match_branch_agent bn ps = rstripAll p '/') ∧
    (s ∈ detect_agent_sessions repo cfg now → normalizedAgent cfg s.agent) := by
  refine ⟨?_, fun h => match_author_agent_lower_invariant a1 a2 ps h, ?_, ?_⟩
  · intro h
    rcases match_author_agent_cases a1 ps with h0 | h1
    · exact absurd h0 h
    · exact h1
  · intro h
    rcases match_branch_agent_cases bn ps with h0 | h1
    · exact absurd h0 h
    · exact h1
  · intro hs
    simp only [detect_agent_sessions] at hs
    have hs2 := (List.perm_insertionSort
      (fun a b : AgentSession => b.last_commit_ts ≤ a.last_commit_ts) _).mem_iff.mp hs
    rcases List.mem_filterMap.mp hs2 with ⟨bucket, hbm, hsome⟩
    rw [sessionOfBucket_agent now bucket s hsome]
    exact detect_foldl_normalized cfg repo.branches [] (by simp) bucket hbm

/-- Witness for C10: a cased author name matching a hyphen-suffixed pattern
yields the normalized pattern. -/
theorem agent_identifier_normalized_witness :
    match_author_agent ("Claude-Bot") ["claude-"] ≠ "" ∧
    ∃ p ∈ ["claude-"], strIn (lowerStr p) (lowerStr ("Claude-Bot")) = true ∧
      match_author_agent ("Claude-Bot") ["claude-"] = rstripAll (lowerStr p) '-' := by
  refine ⟨by decide, ?_⟩
  exact (agent_identifier_normalized ("Claude-Bot") ("") ("") ["claude-"]
    emptyRepoC4 defaultAgentsConfig 0 ⟨"", "", 0, 0, "", "", 0, 0, ""⟩).1 (by decide)

/-- The code-point order on character lists is total. -/
theorem lexLeB_total : ∀ as bs : List Char, lexLeB as bs = true ∨ lexLeB bs as = true
  | [], _ => Or.inl rfl
  | _ :: _, [] => Or.inr rfl
  | a :: as, b :: bs => by
    rcases Nat.lt_trichotomy a.toNat b.toNat with h | h | h
    · left
      simp only [lexLeB]
      rw [if_pos h]
    · rcases lexLeB_total as bs with h2 | h2
      · left
        simp only [lexLeB]
        rw [if_neg (by omega), if_neg (by omega)]
        exact h2
      · right
        simp only [lexLeB]
        rw [if_neg (by omega), if_neg (by omega)]
        exact h2
    · right
      simp only [lexLeB]
      rw [if_pos h]

/-- The code-point order on character lists is transitive. -/
theorem lexLeB_trans : ∀ as bs cs : List Char,
    lexLeB as bs = true → lexLeB bs cs = true → lexLeB as cs = true
  | [], _, _, _, _ => rfl
  | _ :: _, [], _, h1, _ => by simp [lexLeB] at h1
  | _ :: _, _ :: _, [], _, h2 => by simp [lexLeB] at h2
  | a :: as, b :: bs, c :: cs, h1, h2 => by
    simp only [lexLeB] at h1 h2 ⊢
    rcases Nat.lt_trichotomy a.toNat b.toNat with hab | hab | hab
    · by_cases hbc : b.toNat < c.toNat
      · rw [if_pos (by omega)]
      · by_cases hcb : c.toNat < b.toNat
        · rw [if_neg hbc, if_pos hcb] at h2
          exact absurd h2 (by simp)
        · rw [if_pos (by omega)]
    · rw [if_neg (by omega), if_neg (by omega)] at h1
      by_cases hbc : b.toNat < c.toNat
      · rw [if_pos (by omega)]
      · by_cases hcb : c.toNat < b.toNat
        · rw [if_neg hbc, if_pos hcb] at h2
          exact absurd h2 (by simp)
        · rw [if_neg hbc, if_neg hcb] at h2
          rw [if_neg (by omega), if_neg (by omega)]
          exact lexLeB_trans as bs cs h1 h2
    · rw [if_neg (by omega), if_pos (by omega)] at h1
      exact absurd h1 (by simp)

instance : IsTotal String strLe :=
  ⟨fun a b => lexLeB_total a.data b.data⟩

instance : IsTrans String strLe :=
  ⟨fun a b c => lexLeB_trans a.data b.data c.data⟩

mutual

/-- The walk preserves the dedup invariant: rendered repo paths stay
distinct and recorded in `seen`. -/
theorem walkForRepos_nodup (e : FSEntry) (path : List String) (d : Int)
    (st : WalkState) (h : WalkNodupInv st) :
    WalkNodupInv (walkForRepos e path d st) := by
  unfold walkForRepos
  by_cases hd : d < 0
  · rw [if_pos hd]
    exact h
  · rw [if_neg hd]
    cases e with
    | dir n g cs =>
      cases g with
      | false => exact walkChildList_nodup cs path d st h
      | true =>
        by_cases hseen : renderPath path ∈ st.seen
        · simp only [if_pos hseen, if_true]
          exact h
        · simp only [if_neg hseen, if_true]
          constructor
          · rw [List.map_append]
            simp only [List.map_cons, List.map_nil]
            rw [List.nodup_append]
            refine ⟨h.1, List.nodup_singleton _, ?_⟩
            intro a ha hb
            have : a = renderPath path := by simpa using hb
            subst this
            rcases List.mem_map.mp ha with ⟨p, hp, hpe⟩
            exact hseen (hpe ▸ h.2 p hp)
          · intro p hp
            rcases List.mem_append.mp hp with hp | hp
            · exact List.mem_cons_of_mem _ (h.2 p hp)
            · have : p = path := by simpa using hp
              subst this
              exact List.mem_cons_self _ _

/-- The child loop preserves the dedup invariant. -/
theorem walkChildList_nodup (cs : List FSEntry) (path : List String) (d : Int)
    (st : WalkState) (h : WalkNodupInv st) :
    WalkNodupInv (walkChildList cs path d st) := by
  cases cs with
  | nil =>
    unfold walkChildList
    exact h
  | cons c rest =>
    unfold walkChildList
    refine walkChildList_nodup rest path d _ ?_
    by_cases hskip : skipDirName c.nameOf = true
    · rw [if_pos hskip]
      exact h
    · rw [if_neg hskip]
      exact walkForRepos_nodup c (path ++ [c.nameOf]) (d - 1) st h

end

/-- The per-root fold preserves the dedup invariant. -/
theorem discover_fold_inv (fs : FSEntry) (d : Int) (dirs : List (List String))
    (st : WalkState) (h : WalkNodupInv st) :
    WalkNodupInv (dirs.foldl (fun st dd =>
      match lookupPath fs dd with
      | none => st
      | some e => walkForRepos e dd d st) st) := by
  induction dirs generalizing st with
  | nil => exact h
  | cons dd rest ih =>
    simp only [List.foldl_cons]
    apply ih
    cases hl : lookupPath fs dd with
    | none => simp only [hl]; exact h
    | some e => simp only [hl]; exact walkForRepos_nodup e dd d st h

/-- A list that reaches at most one element beyond `xs` inside `xs ++ [x]`
is either inside `xs` or the whole list. -/
theorem prefix_snoc_cases {α : Type} (r xs : List α) (x : α)
    (h : r <+: xs ++ [x]) : r <+: xs ∨ r = xs ++ [x] := by
  by_cases hl : r.length ≤ xs.length
  · exact Or.inl (List.prefix_of_prefix_length_le h (List.prefix_append xs [x]) hl)
  · right
    refine h.eq_of_length ?_
    have := h.length_le
    simp only [List.length_append, List.length_cons, List.length_nil] at this ⊢
    omega

/-- Two one-step extensions of the same base that lie inside the same list
extend by the same name. -/
theorem prefix_same_length_append {α : Type} (path : List α) (n m : α) (r : List α)
    (h1 : path ++ [n] <+: r) (h2 : path ++ [m] <+: r) : n = m := by
  have hp := List.prefix_of_prefix_length_le h1 h2 (by simp)
  have he := hp.eq_of_length (by simp)
  simpa using he

mutual

/-- Separation invariant of the walk: discovered positions never lie inside
one another; new positions extend the walk root. -/
theorem walkForRepos_sep (e : FSEntry) (path : List String) (d : Int)
    (st : WalkState) (wf : wfTreeB e = true)
    (h1 : PairwiseNonPref st.repos)
    (h2 : ∀ r ∈ st.repos, ¬ (path <+: r))
    (h3 : ∀ r ∈ st.repos, ¬ (r <+: path)) :
    PairwiseNonPref (walkForRepos e path d st).repos ∧
    ∀ r ∈ (walkForRepos e path d st).repos, r ∈ st.repos ∨ path <+: r := by
  unfold walkForRepos
  by_cases hd : d < 0
  · rw [if_pos hd]
    exact ⟨h1, fun r hr => Or.inl hr⟩
  · rw [if_neg hd]
    cases e with
    | dir n g cs =>
      cases g with
      | true =>
        by_cases hseen : renderPath path ∈ st.seen
        · simp only [if_pos hseen, if_true]
          exact ⟨h1, fun r hr => Or.inl hr⟩
        · simp only [if_neg hseen, if_true]
          constructor
          · intro p hp q hq hne
            rcases List.mem_append.mp hp with hp | hp <;>
              rcases List.mem_append.mp hq with hq | hq
            · exact h1 p hp q hq hne
            · have hqe : q = path := by simpa using hq
              rw [hqe]
              exact h2 p hp
            · have hpe : p = path := by simpa using hp
              rw [hpe]
              exact h3 q hq
            · have hpe : p = path := by simpa using hp
              have hqe : q = path := by simpa using hq
              exact absurd (hpe.trans hqe.symm) hne
          · intro r hr
            rcases List.mem_append.mp hr with hr | hr
            · exact Or.inl hr
            · have : r = path := by simpa using hr
              exact Or.inr (this ▸ List.prefix_rfl)
      | false =>
        simp only [wfTreeB, Bool.and_eq_true, decide_eq_true_eq] at wf
        have hsep := walkChildList_sep cs path d st wf.1 wf.2 h1
          (fun r hr => Or.inl (h2 r hr)) h3
        refine ⟨hsep.1, fun r hr => ?_⟩
        rcases hsep.2 r hr with h0 | ⟨c, _, hp⟩
        · exact Or.inl h0
        · exact Or.inr ((List.prefix_append path [c.nameOf]).trans hp)

/-- Separation invariant of the child loop. -/
theorem walkChildList_sep (cs : List FSEntry) (path : List String) (d : Int)
    (st : WalkState) (wf : wfChildrenB cs = true)
    (hnd : (cs.map FSEntry.nameOf).Nodup)
    (h1 : PairwiseNonPref st.repos)
    (hPart : ∀ r ∈ st.repos, (¬ (path <+: r)) ∨
      ∃ nn, (path ++ [nn]) <+: r ∧ nn ∉ cs.map FSEntry.nameOf)
    (hAnc : ∀ r ∈ st.repos, ¬ (r <+: path)) :
    PairwiseNonPref (walkChildList cs path d st).repos ∧
    ∀ r ∈ (walkChildList cs path d st).repos,
      r ∈ st.repos ∨ ∃ c ∈ cs, (path ++ [c.nameOf]) <+: r := by
  cases cs with
  | nil =>
    unfold walkChildList
    exact ⟨h1, fun r hr => Or.inl hr⟩
  | cons c rest =>
    simp only [wfChildrenB, Bool.and_eq_true] at wf
    simp only [List.map_cons, List.nodup_cons] at hnd
    unfold walkChildList
    by_cases hskip : skipDirName c.nameOf = true
    · rw [if_pos hskip]
      have hres := walkChildList_sep rest path d st wf.2 hnd.2 h1
        (fun r hr => (hPart r hr).imp id
          (fun h => ⟨h.choose, h.choose_spec.1,
            fun hmem => h.choose_spec.2 (List.mem_cons_of_mem _ hmem)⟩))
        hAnc
      refine ⟨hres.1, fun r hr => ?_⟩
      rcases hres.2 r hr with h0 | ⟨c2, hc2, hp⟩
      · exact Or.inl h0
      · exact Or.inr ⟨c2, List.mem_cons_of_mem c hc2, hp⟩
    · rw [if_neg hskip]
      have h2A : ∀ r ∈ st.repos, ¬ ((path ++ [c.nameOf]) <+: r) := by
        intro r hr hpre
        rcases hPart r hr with hL | ⟨nn, hpre2, hnin⟩
        · exact hL ((List.prefix_append path [c.nameOf]).trans hpre)
        · have he : nn = c.nameOf :=
            prefix_same_length_append path nn c.nameOf r hpre2 hpre
          exact hnin (by rw [he, List.map_cons]; exact List.mem_cons_self _ _)
      have h3A : ∀ r ∈ st.repos, ¬ (r <+: path ++ [c.nameOf]) := by
        intro r hr hpre
        rcases prefix_snoc_cases r path c.nameOf hpre with hp | he
        · exact hAnc r hr hp
        · rcases hPart r hr with hL | ⟨nn, hpre2, hnin⟩
          · exact hL (he ▸ List.prefix_append path _)
          · have he2 : nn = c.nameOf :=
              prefix_same_length_append path nn c.nameOf r hpre2
                (he ▸ List.prefix_rfl)
            exact hnin (by rw [he2, List.map_cons]; exact List.mem_cons_self _ _)
      have hA := walkForRepos_sep c (path ++ [c.nameOf]) (d - 1) st
        wf.1.2 h1 h2A h3A
      have hPart2 : ∀ r ∈ (walkForRepos c (path ++ [c.nameOf]) (d - 1) st).repos,
          (¬ (path <+: r)) ∨
            ∃ nn, (path ++ [nn]) <+: r ∧ nn ∉ rest.map FSEntry.nameOf := by
        intro r hr
        rcases hA.2 r hr with hold | hnew
        · rcases hPart r hold with hL | ⟨nn, hpre, hnin⟩
          · exact Or.inl hL
          · exact Or.inr ⟨nn, hpre, fun hmem =>
              hnin (List.mem_cons_of_mem _ hmem)⟩
        · exact Or.inr ⟨c.nameOf, hnew, hnd.1⟩
      have hAnc2 : ∀ r ∈ (walkForRepos c (path ++ [c.nameOf]) (d - 1) st).repos,
          ¬ (r <+: path) := by
        intro r hr hpre
        rcases hA.2 r hr with hold | hnew
        · exact hAnc r hold hpre
        · have l1 := hnew.length_le
          have l2 := hpre.length_le
          simp only [List.length_append, List.length_cons, List.length_nil] at l1
          omega
      have hB := walkChildList_sep rest path d
        (walkForRepos c (path ++ [c.nameOf]) (d - 1) st) wf.2 hnd.2
        hA.1 hPart2 hAnc2
      refine ⟨hB.1, fun r hr => ?_⟩
      rcases hB.2 r hr with h0 | ⟨c2, hc2, hp⟩
      · rcases hA.2 r h0 with hold | hnew
        · exact Or.inl hold
        · exact Or.inr ⟨c, List.mem_cons_self c rest, hnew⟩
      · exact Or.inr ⟨c2, List.mem_cons_of_mem c hc2, hp⟩

end

/-- A member of a well-formed sibling list has a well-formed name and a
well-formed subtree. -/
theorem wfChildrenB_mem (cs : List FSEntry) (c : FSEntry) (hc : c ∈ cs)
    (h : wfChildrenB cs = true) : wfNameB c.nameOf = true ∧ wfTreeB c = true := by
  induction cs with
  | nil => cases hc
  | cons c2 rest ih =>
    simp only [wfChildrenB, Bool.and_eq_true] at h
    rcases List.mem_cons.mp hc with he | hm
    · subst he
      exact ⟨h.1.1, h.1.2⟩
    · exact ih hm h.2

/-- Looking up a root inside a well-formed tree lands on a well-formed
subtree. -/
theorem lookup_wf (segs : List String) : ∀ (fs e : FSEntry),
    wfTreeB fs = true → lookupPath fs segs = some e → wfTreeB e = true := by
  induction segs with
  | nil =>
    intro fs e hwf hl
    simp only [lookupPath, Option.some.injEq] at hl
    rw [← hl]
    exact hwf
  | cons s rest ih =>
    intro fs e hwf hl
    cases fs with
    | dir n g cs =>
      simp only [lookupPath, FSEntry.childrenOf] at hl
      cases hf : cs.find? (fun c => c.nameOf == s) with
      | none =>
        rw [hf] at hl
        simp at hl
      | some c =>
        rw [hf] at hl
        have hc : c ∈ cs := List.mem_of_find?_eq_some hf
        have hwfcs : wfChildrenB cs = true := by
          simp only [wfTreeB, Bool.and_eq_true] at hwf
          exact hwf.1
        exact ih c e (wfChildrenB_mem cs c hc hwfcs).2 hl

/-- Every segment of a root that resolves inside a well-formed tree is a
well-formed name. -/
theorem lookup_segs_wf (segs : List String) : ∀ (fs e : FSEntry),
    wfTreeB fs = true → lookupPath fs segs = some e →
    ∀ s ∈ segs, wfNameB s = true := by
  induction segs with
  | nil =>
    intro fs e _ _ s hs
    cases hs
  | cons s0 rest ih =>
    intro fs e hwf hl s hs
    cases fs with
    | dir n g cs =>
      simp only [lookupPath, FSEntry.childrenOf] at hl
      cases hf : cs.find? (fun c => c.nameOf == s0) with
      | none =>
        rw [hf] at hl
        simp at hl
      | some c =>
        rw [hf] at hl
        have hc : c ∈ cs := List.mem_of_find?_eq_some hf
        have heq : c.nameOf = s0 := by
          have := List.find?_some hf
          simpa using this
        have hwfcs : wfChildrenB cs = true := by
          simp only [wfTreeB, Bool.and_eq_true] at hwf
          exact hwf.1
        rcases List.mem_cons.mp hs with he | hm
        · subst he
          rw [← heq]
          exact (wfChildrenB_mem cs c hc hwfcs).1
        · exact ih c e (wfChildrenB_mem cs c hc hwfcs).2 hl s hm

mutual

/-- All the walk's recorded positions use well-formed names. -/
theorem walkForRepos_segswf (e : FSEntry) (path : List String) (d : Int)
    (st : WalkState) (hwf : wfTreeB e = true)
    (hpath : ∀ s ∈ path, wfNameB s = true) (hst : SegsWf st.repos) :
    SegsWf (walkForRepos e path d st).repos := by
  unfold walkForRepos
  by_cases hd : d < 0
  · rw [if_pos hd]
    exact hst
  · rw [if_neg hd]
    cases e with
    | dir n g cs =>
      cases g with
      | true =>
        by_cases hseen : renderPath path ∈ st.seen
        · simp only [if_pos hseen, if_true]
          exact hst
        · simp only [if_neg hseen, if_true]
          intro q hq s hs
          rcases List.mem_append.mp hq with hql | hqr
          · exact hst q hql s hs
          · have : q = path := by simpa using hqr
            subst this
            exact hpath s hs
      | false =>
        simp only [wfTreeB, Bool.and_eq_true] at hwf
        exact walkChildList_segswf cs path d st hwf.1 hpath hst

/-- All the child loop's recorded positions use well-formed names. -/
theorem walkChildList_segswf (cs : List FSEntry) (path : List String) (d : Int)
    (st : WalkState) (hwf : wfChildrenB cs = true)
    (hpath : ∀ s ∈ path, wfNameB s = true) (hst : SegsWf st.repos) :
    SegsWf (walkChildList cs path d st).repos := by
  cases cs with
  | nil =>
    unfold walkChildList
    exact hst
  | cons c rest =>
    simp only [wfChildrenB, Bool.and_eq_true] at hwf
    unfold walkChildList
    refine walkChildList_segswf rest path d _ hwf.2 hpath ?_
    by_cases hskip : skipDirName c.nameOf = true
    · rw [if_pos hskip]
      exact hst
    · rw [if_neg hskip]
      refine walkForRepos_segswf c (path ++ [c.nameOf]) (d - 1) st hwf.1.2 ?_ hst
      intro s hs
      rcases List.mem_append.mp hs with h | h
      · exact hpath s h
      · have : s = c.nameOf := by simpa using h
        rw [this]
        exact hwf.1.1

end

/-- A well-formed name has nonempty, slash-free character data. -/
theorem wfNameB_spec (s : String) (h : wfNameB s = true) :
    s.data ≠ [] ∧ '/' ∉ s.data := by
  have h2 := of_decide_eq_true h
  exact ⟨fun hd => h2.1 (String.ext hd), h2.2⟩

/-- Character data of a two-or-more-segment join. -/
theorem joinSlash_data_cons2 (s b : String) (t : List String) :
    (joinSlash (s :: b :: t)).data = s.data ++ '/' :: (joinSlash (b :: t)).data := by
  show (s ++ "/" ++ joinSlash (b :: t)).data = _
  rw [String.data_append, String.data_append, List.append_assoc]
  rfl

/-- Aligning two slash-separated heads: equal heads and nested tails. -/
theorem sep_align : ∀ (as bs x y : List Char), '/' ∉ as → '/' ∉ bs →
    as ++ '/' :: x <+: bs ++ '/' :: y → as = bs ∧ x <+: y
  | [], [], _, _, _, _, h => ⟨rfl, (List.cons_prefix_cons.mp h).2⟩
  | [], b :: bs', x, y, _, hb, h => by
    have h1 := (List.cons_prefix_cons.mp
      (show '/' :: x <+: b :: (bs' ++ '/' :: y) from h)).1
    rw [← h1] at hb
    exact absurd (List.mem_cons_self _ _) hb
  | a :: as', [], x, y, ha, _, h => by
    have h1 := (List.cons_prefix_cons.mp
      (show a :: (as' ++ '/' :: x) <+: '/' :: y from h)).1
    exact absurd (by rw [← h1]; exact List.mem_cons_self a as' : '/' ∈ a :: as') ha
  | a :: as', b :: bs', x, y, ha, hb, h => by
    obtain ⟨hab, h2⟩ := List.cons_prefix_cons.mp
      (show a :: (as' ++ '/' :: x) <+: b :: (bs' ++ '/' :: y) from h)
    obtain ⟨he, hx⟩ := sep_align as' bs' x y
      (fun hm => ha (List.mem_cons_of_mem a hm))
      (fun hm => hb (List.mem_cons_of_mem b hm)) h2
    exact ⟨by rw [hab, he], hx⟩

/-- String-level nesting of slash-joined well-formed segment paths implies
proper segment-prefix nesting. -/
theorem join_nested : ∀ (q p : List String),
    (∀ s ∈ q, wfNameB s = true) → (∀ s ∈ p, wfNameB s = true) →
    ((joinSlash q).data ++ ['/'] <+: (joinSlash p).data) → q <+: p ∧ q ≠ p
  | [], [], _, _, h => by
    have h1 := List.prefix_nil.mp (show ['/'] <+: ([] : List Char) from h)
    simp at h1
  | [], _ :: _, _, _, _ => ⟨List.nil_prefix, by simp⟩
  | a :: q', [], hq, _, h => by
    have h1 := List.prefix_nil.mp
      (show (joinSlash (a :: q')).data ++ ['/'] <+: ([] : List Char) from h)
    simp at h1
  | a :: q', b :: p', hq, hp, h => by
    cases q' with
    | nil =>
      cases p' with
      | nil =>
        have hmem : '/' ∈ b.data := h.subset (by simp)
        exact absurd hmem (wfNameB_spec b (hp b (by simp))).2
      | cons c t =>
        have h' : a.data ++ '/' :: ([] : List Char) <+:
            b.data ++ '/' :: (joinSlash (c :: t)).data := by
          rw [← joinSlash_data_cons2]
          exact h
        have hal := sep_align a.data b.data [] _
          (wfNameB_spec a (hq a (by simp))).2
          (wfNameB_spec b (hp b (by simp))).2 h'
        have hab : a = b := String.ext hal.1
        refine ⟨by rw [hab]; exact List.cons_prefix_cons.mpr ⟨rfl, List.nil_prefix⟩, ?_⟩
        simp
    | cons a2 q'' =>
      cases p' with
      | nil =>
        have hmem : '/' ∈ b.data := by
          apply h.subset
          rw [joinSlash_data_cons2]
          simp
        exact absurd hmem (wfNameB_spec b (hp b (by simp))).2
      | cons b2 p'' =>
        have h' : a.data ++ '/' :: ((joinSlash (a2 :: q'')).data ++ ['/']) <+:
            b.data ++ '/' :: (joinSlash (b2 :: p'')).data := by
          rw [← joinSlash_data_cons2]
          have he : a.data ++ '/' :: ((joinSlash (a2 :: q'')).data ++ ['/']) =
              (joinSlash (a :: a2 :: q'')).data ++ ['/'] := by
            rw [joinSlash_data_cons2]
            simp
          rw [he]
          exact h
        have hal := sep_align a.data b.data _ _
          (wfNameB_spec a (hq a (by simp))).2
          (wfNameB_spec b (hp b (by simp))).2 h'
        have hab : a = b := String.ext hal.1
        have hrec := join_nested (a2 :: q'') (b2 :: p'')
          (fun s hs => hq s (List.mem_cons_of_mem a hs))
          (fun s hs => hp s (List.mem_cons_of_mem b hs)) hal.2
        refine ⟨by rw [hab]; exact List.cons_prefix_cons.mpr ⟨rfl, hrec.1⟩, ?_⟩
        intro heq
        injection heq with h1 h2
        exact hrec.2 h2

/-- String-level nesting of rendered well-formed positions implies proper
segment-prefix nesting. -/
theorem render_nested (p q : List String)
    (hp : ∀ s ∈ p, wfNameB s = true) (hq : ∀ s ∈ q, wfNameB s = true)
    (h : nestedIn (renderPath p) (renderPath q) = true) : q <+: p ∧ q ≠ p := by
  have h2 : ((renderPath q).data ++ ['/']) <+: (renderPath p).data :=
    List.isPrefixOf_iff_prefix.mp h
  have e1 : ∀ l : List String, (renderPath l).data = '/' :: (joinSlash l).data := by
    intro l
    show ("/" ++ joinSlash l).data = _
    rw [String.data_append]
    rfl
  rw [e1, e1] at h2
  have h3 := (List.cons_prefix_cons.mp
    (show '/' :: ((joinSlash q).data ++ ['/']) <+: '/' :: (joinSlash p).data from h2)).2
  exact join_nested q p hq hp h3

/-- Walker output is always sorted ascending in the code-point order. -/
theorem discover_sorted (fs : FSEntry) (dirs : List (List String)) (d : Int) :
    List.Sorted strLe (discover_repos fs dirs d) := by
  simp only [discover_repos]
  exact List.sorted_insertionSort strLe _

/-- Walker output never contains duplicate canonical paths. -/
theorem discover_nodup (fs : FSEntry) (dirs : List (List String)) (d : Int) :
    (discover_repos fs dirs d).Nodup := by
  simp only [discover_repos]
  have hinv := discover_fold_inv fs d dirs ⟨[], []⟩ ⟨by simp, by simp⟩
  exact (List.perm_insertionSort strLe _).symm.nodup hinv.1

/-- From a single root of a well-formed tree, no discovered repository is
nested inside another discovered repository. -/
theorem discover_single_root_sep (fs : FSEntry) (root : List String) (d : Int)
    (hwf : wfTreeB fs = true) :
    ∀ x ∈ discover_repos fs [root] d, ∀ y ∈ discover_repos fs [root] d,
      x ≠ y → nestedIn x y = false := by
  intro x hx y hy hxy
  cases hl : lookupPath fs root with
  | none =>
    have hkey : discover_repos fs [root] d = [] := by
      simp [discover_repos, hl]
    rw [hkey] at hx
    cases hx
  | some e =>
    have hkey : discover_repos fs [root] d =
        ((walkForRepos e root d ⟨[], []⟩).repos.map renderPath).insertionSort strLe := by
      simp [discover_repos, hl]
    rw [hkey] at hx hy
    have hx2 := (List.perm_insertionSort strLe _).mem_iff.mp hx
    have hy2 := (List.perm_insertionSort strLe _).mem_iff.mp hy
    rcases List.mem_map.mp hx2 with ⟨p, hpm, hpx⟩
    rcases List.mem_map.mp hy2 with ⟨q, hqm, hqy⟩
    have hwe : wfTreeB e = true := lookup_wf root fs e hwf hl
    have hsep := walkForRepos_sep e root d ⟨[], []⟩ hwe
      (by intro p2 hp2; exact absurd hp2 (List.not_mem_nil p2))
      (by intro r hr; exact absurd hr (List.not_mem_nil r))
      (by intro r hr; exact absurd hr (List.not_mem_nil r))
    have hsw := walkForRepos_segswf e root d ⟨[], []⟩ hwe
      (lookup_segs_wf root fs e hwf hl)
      (by intro q2 hq2; exact absurd hq2 (List.not_mem_nil q2))
    by_contra hne
    have hbt : nestedIn x y = true := by
      revert hne
      cases nestedIn x y <;> simp
    rw [← hpx, ← hqy] at hbt
    have hn := render_nested p q (hsw p hpm) (hsw q hqm) hbt
    exact hsep.1 p hpm q hqm (Ne.symm hn.2) hn.1

/-- C3 counterexample: with overlapping roots /a and /a/b, both repositories
are returned even though /a/b is nested inside the discovered root /a. -/
theorem walker_nested_counterexample :
    discover_repos cexFS [["a"], ["a", "b"]] 3 = ["/a", "/a/b"] ∧
    nestedIn ("/a/b") ("/a") = true :=
  ⟨by decide, by decide⟩

/-- C3 (amended): walker output is always sorted ascending and free of
duplicate canonical paths; and for a single root directory of a real
(well-formed) filesystem no discovered repository path is nested inside
another — but overlapping input roots can return a repository nested inside
another discovered root, as the counterexample shows. -/
theorem walker_output_properties :
    (∀ (fs : FSEntry) (dirs : List (List String)) (d : Int),
        List.Sorted strLe (discover_repos fs dirs d)) ∧
    (∀ (fs : FSEntry) (dirs : List (List String)) (d : Int),
        (discover_repos fs dirs d).Nodup) ∧
    (∀ (fs : FSEntry) (root : List String) (d : Int), wfTreeB fs = true →
        ∀ x ∈ discover_repos fs [root] d, ∀ y ∈ discover_repos fs [root] d,
          x ≠ y → nestedIn x y = false) :=
  ⟨discover_sorted, discover_nodup, discover_single_root_sep⟩

/-- Witness for C3 (amended) on a concrete two-repository filesystem. -/
theorem walker_output_properties_witness :
    wfTreeB wfFS = true ∧
    ("/alpha" : String) ∈ discover_repos wfFS [[]] 3 ∧
    ("/beta" : String) ∈ discover_repos wfFS [[]] 3 ∧
    nestedIn ("/alpha") ("/beta") = false := by
  refine ⟨by decide, by decide, by decide, ?_⟩
  exact walker_output_properties.2.2 wfFS [] 3 (by decide) ("/alpha") (by decide)
    ("/beta") (by decide) (by decide)
